import Mathlib

/-!
Verification development for the Skilljar lesson downloader
(`skilljar_lesson_downloader.py`).  The Python source is embedded shallowly:
pure string manipulation becomes functions over `List Char` / `String`,
HTTP effects become explicit oracle parameters (`Except` results, header
options), and the per-lesson procedure becomes a function producing the
ordered trace of filesystem/network events it performs.
-/

/-! ## Generic helpers (ASCII models of Python string primitives) -/

/-- Characters of a string; abbreviation used throughout. -/
abbrev Chars := List Char

/-- Whether `pat` is a prefix of `l` (char-exact). -/
def isPrefixList : Chars → Chars → Bool
  | [], _ => true
  | _ :: _, [] => false
  | p :: ps, c :: cs => p = c && isPrefixList ps cs

/-- Whether `pat` is a suffix of `l`. -/
def isSuffixList (pat l : Chars) : Bool :=
  isPrefixList pat.reverse l.reverse

/-- Whether `pat` occurs as a contiguous substring of `l`
(model of Python `pat in s`). -/
def containsSub (pat : Chars) : Chars → Bool
  | [] => pat.isEmpty
  | c :: cs => isPrefixList pat (c :: cs) || containsSub pat cs

/-- Model of Python `s.split(sep)` for a one-character separator:
always returns at least one (possibly empty) piece. -/
def splitOnChar (sep : Char) : Chars → List Chars
  | [] => [[]]
  | c :: cs =>
    let r := splitOnChar sep cs
    if c = sep then [] :: r
    else
      match r with
      | h :: t => (c :: h) :: t
      | [] => [[c]]

/-- Text after the first occurrence of `pat`, if `pat` occurs (used to model
scheme splitting in URL parsing). -/
def dropThroughSub (pat : Chars) : Chars → Option Chars
  | [] => if pat.isEmpty then some [] else none
  | c :: cs =>
    if isPrefixList pat (c :: cs) then some ((c :: cs).drop pat.length)
    else dropThroughSub pat cs

/-- Pair each element with its index, starting at `k` (model of Python
`enumerate` / a counter threaded through a loop). -/
def indexedFrom (k : Nat) : List α → List (Nat × α)
  | [] => []
  | x :: xs => (k, x) :: indexedFrom (k + 1) xs

/-- Concatenation of the images of `f` (kept as a local definition so that
inductions unfold it directly). -/
def flatMapL (f : α → List β) : List α → List β
  | [] => []
  | x :: xs => f x ++ flatMapL f xs

/-- Decimal digits of `n`, most significant first, by fuelled division
(empty for `n = 0`). -/
def natDigitsGo : Nat → Nat → List Char
  | 0, _ => []
  | fuel + 1, n =>
    if n = 0 then [] else natDigitsGo fuel (n / 10) ++ [Nat.digitChar (n % 10)]

/-- Model of Python `str(n)` for a natural number. -/
def natToDec (n : Nat) : String :=
  if n = 0 then ("0") else String.mk (natDigitsGo (n + 1) n)

/-- Read a decimal digit string back into a number (used to prove that
`natToDec` is injective). -/
def decFromChars (l : Chars) : Nat :=
  l.foldl (fun acc c => acc * 10 + (c.toNat - 48)) 0

/-! ## Markup asset extractor (`_extract_urls_from_html`)

The Python function applies, in order, the regular expressions

  `<img[^>]+src=["']([^"']+)["']`  (and likewise for `video`, `audio`,
  `source`, `embed`, `iframe`),
  `<a[^>]+href=["']([^"']+\.(?:pdf|doc|docx|xls|xlsx|ppt|pptx|zip|rar))["']`

with `re.IGNORECASE`, concatenates all `findall` results, and keeps the
matches that start with `http://` or `https://`.  The matchers below embed
the backtracking semantics of these specific patterns:

* `[^>]+` is greedy, so the attribute suffix is matched at the rightmost
  possible start inside the run of non-`>` characters (at least one of
  which must precede it);
* `([^"']+)` is a maximal nonempty run of non-quote characters and must be
  followed by a quote (either kind, independent of the opening one);
* for the anchor pattern the captured value must additionally end in
  `.<ext>` for one of the fixed extensions (case-insensitively) with a
  nonempty stem before the dot;
* scanning restarts after the end of each match, advancing one character
  on failure, exactly as `re.findall` does.
-/

/-- The apostrophe character (U+0027). -/
def apos : Char := Char.ofNat 39

/-- Is `c` one of the two quote characters of the pattern `["']`? -/
def isQuote (c : Char) : Bool := c = '"' || c = apos

/-- Strip `lit` from the front of `s`, comparing case-insensitively
(`re.IGNORECASE`, ASCII model). -/
def stripPrefixCI : Chars → Chars → Option Chars
  | [], s => some s
  | _ :: _, [] => none
  | p :: ps, c :: cs => if c.toLower = p.toLower then stripPrefixCI ps cs else none

/-- Match `["']([^"']+)["']` at the front of `s`: an opening quote, a maximal
nonempty run of non-quote characters (the capture), and a closing quote.
Returns the capture and the rest of the input after the closing quote. -/
def matchQuoted (s : Chars) : Option (Chars × Chars) :=
  match s with
  | [] => none
  | q :: rest =>
    if isQuote q then
      let cap := rest.takeWhile (fun c => !(isQuote c))
      match rest.dropWhile (fun c => !(isQuote c)) with
      | [] => none
      | _ :: rest2 => if cap.isEmpty then none else some (cap, rest2)
    else none

/-- Match `src=["']([^"']+)["']` at the front of `s`. -/
def matchSrcSuffix (s : Chars) : Option (Chars × Chars) :=
  match stripPrefixCI (("src=").data) s with
  | some s2 => matchQuoted s2
  | none => none

/-- The fixed document/archive extensions of the anchor pattern. -/
def extList : List Chars :=
  [("pdf").data, ("doc").data, ("docx").data, ("xls").data, ("xlsx").data,
   ("ppt").data, ("pptx").data, ("zip").data, ("rar").data]

/-- Does the captured value end in `.<ext>` (case-insensitively) with a
nonempty stem before the dot?  This is exactly when
`[^"']+\.(?:pdf|...|rar)` can cover the whole capture. -/
def endsWithDocExt (cap : Chars) : Bool :=
  extList.any (fun e =>
    decide (e.length + 2 ≤ cap.length) && isSuffixList ('.' :: e) (cap.map Char.toLower))

/-- Match `href=["']([^"']+\.(?:pdf|...|rar))["']` at the front of `s`. -/
def matchHrefSuffix (s : Chars) : Option (Chars × Chars) :=
  match stripPrefixCI (("href=").data) s with
  | some s2 =>
    match matchQuoted s2 with
    | some (cap, rest) => if endsWithDocExt cap then some (cap, rest) else none
    | none => none
  | none => none

/-- Match `href=["']([^"']+)["']` at the front of `s` (no extension
restriction; used to state the anchor clause of the specification). -/
def matchHrefAnySuffix (s : Chars) : Option (Chars × Chars) :=
  match stripPrefixCI (("href=").data) s with
  | some s2 => matchQuoted s2
  | none => none

/-- Greedy `[^>]+` followed by the attribute suffix `m`: consume at least one
non-`>` character, preferring the longest such run whose remainder matches
`m` (the backtracking order of a greedy `[^>]+`). -/
def greedyTail (m : Chars → Option (Chars × Chars)) : Chars → Option (Chars × Chars)
  | [] => none
  | c :: rest =>
    if c = '>' then none
    else
      match greedyTail m rest with
      | some r => some r
      | none => m rest

/-- Match `<tag[^>]+<suffix>` at the front of `s` (tag compared
case-insensitively). -/
def matchTagAt (tag : Chars) (m : Chars → Option (Chars × Chars)) (s : Chars) :
    Option (Chars × Chars) :=
  match stripPrefixCI ('<' :: tag) s with
  | some s2 => greedyTail m s2
  | none => none

/-- `re.findall` scanning: try the matcher at every position left to right,
resuming after the end of each match.  Fuel bounds the number of scanning
steps; every step consumes at least one character, so `length + 1` fuel is
always sufficient. -/
def findallGo (m : Chars → Option (Chars × Chars)) : Nat → Chars → List Chars
  | 0, _ => []
  | _ + 1, [] => []
  | fuel + 1, c :: rest =>
    match m (c :: rest) with
    | some (cap, after) => cap :: findallGo m fuel after
    | none => findallGo m fuel rest

/-- All captures of matcher `m` in `html`, in scanning order. -/
def findallStr (m : Chars → Option (Chars × Chars)) (html : String) : List String :=
  (findallGo m (html.data.length + 1) html.data).map (fun cs => String.mk cs)

/-- The seven patterns of `_extract_urls_from_html`, in source order. -/
inductive HtmlPattern where
  | srcTag (tag : String)
  | anchorDoc
  deriving DecidableEq

/-- The pattern list of the source, in the order it is iterated. -/
def htmlPatterns : List HtmlPattern :=
  [HtmlPattern.srcTag ("img"), HtmlPattern.srcTag ("video"),
   HtmlPattern.srcTag ("audio"), HtmlPattern.srcTag ("source"),
   HtmlPattern.srcTag ("embed"), HtmlPattern.srcTag ("iframe"),
   HtmlPattern.anchorDoc]

/-- `re.findall(pattern, html, re.IGNORECASE)` for one pattern. -/
def findallPattern : HtmlPattern → String → List String
  | HtmlPattern.srcTag tag, html => findallStr (matchTagAt tag.data matchSrcSuffix) html
  | HtmlPattern.anchorDoc, html => findallStr (matchTagAt (("a").data) matchHrefSuffix) html

/-- `url.startswith(('http://', 'https://'))`. -/
def isAbsoluteUrl (u : String) : Bool :=
  isPrefixList (("http://").data) u.data || isPrefixList (("https://").data) u.data

/-- Embedding of `_extract_urls_from_html`: empty input short-circuits;
otherwise every pattern's matches are accumulated in order and the
absolute-URL filter is applied to the accumulated list. -/
def extractUrlsFromHtml (html : String) : List String :=
  if html = "" then []
  else
    let urls := htmlPatterns.foldl (fun acc p => acc ++ findallPattern p html) []
    urls.filter isAbsoluteUrl

/-! ### Specification-side statements of the extractor contract -/

/-- The extractor contract as amended: per-pattern match lists, each
restricted to absolute URLs, concatenated in pattern-application order
(img, video, audio, source, embed, iframe, anchors). -/
def specOrderedExtract (html : String) : List String :=
  (findallPattern (HtmlPattern.srcTag ("img")) html).filter isAbsoluteUrl ++
  (findallPattern (HtmlPattern.srcTag ("video")) html).filter isAbsoluteUrl ++
  (findallPattern (HtmlPattern.srcTag ("audio")) html).filter isAbsoluteUrl ++
  (findallPattern (HtmlPattern.srcTag ("source")) html).filter isAbsoluteUrl ++
  (findallPattern (HtmlPattern.srcTag ("embed")) html).filter isAbsoluteUrl ++
  (findallPattern (HtmlPattern.srcTag ("iframe")) html).filter isAbsoluteUrl ++
  (findallStr (matchTagAt (("a").data) matchHrefSuffix) html).filter isAbsoluteUrl

/-- The path component of a URL, in the manner of `urllib.parse.urlparse`:
if a `://` scheme separator is present the path starts at the first `/`
after it (empty when there is none); query (`?`) and fragment (`#`) parts
are not part of the path. -/
def urlPathOf (u : String) : String :=
  match dropThroughSub (("://").data) u.data with
  | some rest =>
    String.mk ((rest.dropWhile (fun c => c ≠ '/')).takeWhile (fun c => c ≠ '?' && c ≠ '#'))
  | none =>
    String.mk (u.data.takeWhile (fun c => c ≠ '?' && c ≠ '#'))

/-- Does the target path of the URL end in one of the fixed document/archive
extensions (case-insensitively)?  This is the anchor condition as the claim
words it. -/
def pathEndsInDocExt (u : String) : Bool :=
  extList.any (fun e => isSuffixList ('.' :: e) ((urlPathOf u).data.map Char.toLower))

/-- Modelled from the claim as stated: src matches of the six media tags,
then the href values of anchors *whose target path* ends in a listed
extension, all restricted to absolute URLs, in pattern order. -/
def claimC1Extract (html : String) : List String :=
  (findallPattern (HtmlPattern.srcTag ("img")) html).filter isAbsoluteUrl ++
  (findallPattern (HtmlPattern.srcTag ("video")) html).filter isAbsoluteUrl ++
  (findallPattern (HtmlPattern.srcTag ("audio")) html).filter isAbsoluteUrl ++
  (findallPattern (HtmlPattern.srcTag ("source")) html).filter isAbsoluteUrl ++
  (findallPattern (HtmlPattern.srcTag ("embed")) html).filter isAbsoluteUrl ++
  (findallPattern (HtmlPattern.srcTag ("iframe")) html).filter isAbsoluteUrl ++
  ((findallStr (matchTagAt (("a").data) matchHrefAnySuffix) html).filter
     (fun u => pathEndsInDocExt u && isAbsoluteUrl u))

/-- An anchor whose target path ends in `.pdf` but whose href value carries a
query string after the extension. -/
def c1Html : String := "<a href=\"https://a/x.pdf?v=1\">d</a>"

/-! ## Catalog fetcher: pagination (`_get_paginated_results`)

The endpoint is modelled as a function from page number to the JSON body of
the response; the three response shapes handled by the source are the
constructors of `ApiResponse`.  The loop is embedded with explicit fuel and
also returns the list of page numbers that were requested, so that both
termination and the request trace can be stated. -/

/-- The response shapes handled by `_get_paginated_results`: an object with
a `results` list and an optional `next` pointer, a bare list, or any other
single object. -/
inductive ApiResponse (α : Type) where
  | results (xs : List α) (next : Option String)
  | plainList (xs : List α)
  | single (x : α)
  deriving DecidableEq

/-- The result list of one response (`results` key, bare list, or the object
itself wrapped in a singleton). -/
def pageResults : ApiResponse α → List α
  | ApiResponse.results xs _ => xs
  | ApiResponse.plainList xs => xs
  | ApiResponse.single x => [x]

/-- Whether the response indicates a further page (`data.get('next') is not
None`); only the `results` shape can. -/
def pageHasNext : ApiResponse α → Bool
  | ApiResponse.results _ nxt => nxt.isSome
  | ApiResponse.plainList _ => false
  | ApiResponse.single _ => false

/-- One step of the pagination loop from page `page`, with `fuel` remaining
iterations: request the page, append its results, stop when there is no
next pointer or the page is empty, otherwise continue with `page + 1`.
Returns the requested page numbers and the accumulated results, or `none`
when the fuel is exhausted before the loop breaks. -/
def paginateGo (ep : Nat → ApiResponse α) : Nat → Nat → Option (List Nat × List α)
  | 0, _ => none
  | fuel + 1, page =>
    let r := ep page
    let rs := pageResults r
    if !pageHasNext r || rs.isEmpty then some ([page], rs)
    else
      match paginateGo ep fuel (page + 1) with
      | some (ps, acc) => some (page :: ps, rs ++ acc)
      | none => none

/-- Embedding of `_get_paginated_results`: the loop starts at page 1. -/
def getPaginatedResults (ep : Nat → ApiResponse α) (fuel : Nat) :
    Option (List Nat × List α) :=
  paginateGo ep fuel 1

/-- The pages `p, p+1, ..., p+n-1` in order. -/
def pagesFrom (p : Nat) : Nat → List Nat
  | 0 => []
  | n + 1 => p :: pagesFrom (p + 1) n

/-- The items of pages `p, ..., p+n-1`, concatenated in page order. -/
def itemsFrom (items : Nat → List α) (p : Nat) : Nat → List α
  | 0 => []
  | n + 1 => items p ++ itemsFrom items (p + 1) n

/-- A paginated endpoint returning `N` pages: pages before `N` carry a
`next` pointer, page `N` (and anything after) does not. -/
def nPageEndpoint (N : Nat) (items : Nat → List α) : Nat → ApiResponse α :=
  fun p => ApiResponse.results (items p) (if p < N then some ("next") else none)

/-- Concrete two-page endpoint contents used to witness the pagination
theorem. -/
def c2Items : Nat → List Nat := fun i => [i]

/-! ## Course loop (`get_course_lessons`, `download_courses`)

The transport layer is an oracle mapping a course id to either its lesson
list or a transport error string (`requests.exceptions.RequestException`).
`get_course_lessons` wraps a transport failure in an error whose message
names the course and the cause; the course loop catches any such failure,
records it, and continues with the remaining courses. -/

/-- A lesson, identified by its id (the course loop never inspects more). -/
abbrev LessonId := String

/-- The message of the exception raised by `get_course_lessons` on a
transport failure. -/
def getCourseLessonsMsg (courseId cause : String) : String :=
  ("Could not fetch lessons for course ") ++ courseId ++ (": ") ++ cause

/-- Embedding of `get_course_lessons`: pass the lesson list through, or wrap
the transport error with the course id and cause. -/
def getCourseLessons (fetch : String → Except String (List LessonId))
    (courseId : String) : Except String (List LessonId) :=
  match fetch courseId with
  | Except.ok ls => Except.ok ls
  | Except.error e => Except.error (getCourseLessonsMsg courseId e)

/-- Outcome of processing one course in `download_courses`. -/
inductive CourseOutcome where
  | failed (msg : String)
  | noLessons
  | completed (lessons : List LessonId)
  deriving DecidableEq

/-- The body of the per-course loop of `download_courses`: a failure of the
lesson fetch is caught and recorded, an empty list is noted, otherwise the
lessons are processed. -/
def processCourse (fetch : String → Except String (List LessonId))
    (courseId : String) : CourseOutcome :=
  match getCourseLessons fetch courseId with
  | Except.error msg => CourseOutcome.failed msg
  | Except.ok [] => CourseOutcome.noLessons
  | Except.ok ls => CourseOutcome.completed ls

/-- Embedding of `download_courses`: every course is processed exactly once,
in input order, independently of the outcomes of the others. -/
def downloadCourses (fetch : String → Except String (List LessonId))
    (courseIds : List String) : List CourseOutcome :=
  courseIds.map (processCourse fetch)

/-- A transport layer that always fails; used to witness the course-loop
theorem. -/
def c3Fetch : String → Except String (List LessonId) :=
  fun _ => Except.error ("boom")

/-! ## Lesson directory name (`download_lesson_content`, lines 157-159)

`safe_title = "".join(c for c in lesson_title if c.isalnum() or c in
(' ', '-', '_')).rstrip()` and the directory is `f"{safe_title}_{lesson_id}"`.
Characters are modelled as Lean `Char` with ASCII classification. -/

/-- The characters kept by the title sanitizer: alphanumerics, space,
hyphen, underscore. -/
def keepChar (c : Char) : Bool :=
  c.isAlphanum || c = ' ' || c = '-' || c = '_'

/-- The whitespace stripped by Python `str.rstrip()` (ASCII model). -/
def pySpace (c : Char) : Bool :=
  c = ' ' || c = '\t' || c = '\n' || c = '\r' || c = '\x0b' || c = '\x0c'

/-- `l` with trailing characters satisfying `p` removed. -/
def rstripBy (p : Char → Bool) (l : Chars) : Chars :=
  (l.reverse.dropWhile p).reverse

/-- Embedding of the `safe_title` computation. -/
def safeTitle (title : String) : String :=
  String.mk (rstripBy pySpace (title.data.filter keepChar))

/-- Embedding of the lesson directory name `f"{safe_title}_{lesson_id}"`. -/
def lessonDirName (title lessonId : String) : String :=
  safeTitle title ++ ("_") ++ lessonId

/-- The claim's description of the directory name: remove every character
that is not alphanumeric, space, hyphen or underscore, trim trailing
*spaces*, then append an underscore and the id. -/
def specLessonDirName (title lessonId : String) : String :=
  String.mk (rstripBy (fun c => c = ' ') (title.data.filter keepChar)) ++ ("_") ++ lessonId

/-! ## Asset retriever filename (`_download_file`)

The response is modelled by its `content-type` header (`none` when the
header is absent).  Only the filename computation carries logic; the body
streaming is an opaque write. -/

/-- `url.split('/')[-1]`. -/
def lastUrlSegment (url : String) : Chars :=
  (splitOnChar '/' url.data).getLastD []

/-- Embedding of the filename computation of `_download_file`:
with `use_extension` the extension comes from the text after the last `/`
of the URL when it contains a dot (text after the last dot), otherwise
from the `content-type` header by substring tests in the order
video, pdf, image; without `use_extension` the prefix is the filename. -/
def downloadFilename (url base : String) (useExt : Bool) (ct : Option String) : String :=
  if useExt then
    let seg := lastUrlSegment url
    let ext : String :=
      if seg.contains '.' then (".") ++ String.mk ((splitOnChar '.' seg).getLastD [])
      else
        match ct with
        | some v =>
          let c := v.data.map Char.toLower
          if containsSub (("video").data) c then (".mp4")
          else if containsSub (("pdf").data) c then (".pdf")
          else if containsSub (("image").data) c then (".jpg")
          else ("")
        | none => ("")
    base ++ ext
  else base

/-- The trailing segment of the URL's path (the claim's "trailing path
segment"). -/
def trailingPathSegment (url : String) : Chars :=
  (splitOnChar '/' (urlPathOf url).data).getLastD []

/-- Modelled from the claim as stated: extension first from the URL's
trailing *path* segment when it contains a dot, otherwise from the
content-type by the glob mapping `video/* -> .mp4`, `*pdf* -> .pdf`,
`image/* -> .jpg`. -/
def claimC5Filename (url base : String) (useExt : Bool) (ct : Option String) : String :=
  if useExt then
    let seg := trailingPathSegment url
    let ext : String :=
      if seg.contains '.' then (".") ++ String.mk ((splitOnChar '.' seg).getLastD [])
      else
        match ct with
        | some v =>
          let c := v.data.map Char.toLower
          if isPrefixList (("video/").data) c then (".mp4")
          else if containsSub (("pdf").data) c then (".pdf")
          else if isPrefixList (("image/").data) c then (".jpg")
          else ("")
        | none => ("")
    base ++ ext
  else base

/-- Extension from the URL, when the text after its last `/` contains a
dot (amended reading). -/
def extFromUrl (url : String) : Option String :=
  let seg := lastUrlSegment url
  if seg.contains '.' then some ((".") ++ String.mk ((splitOnChar '.' seg).getLastD []))
  else none

/-- Extension from the content-type header: substring tests for `video`,
`pdf`, `image`, in that order, on the lowercased value. -/
def extFromContentType (ct : Option String) : Option String :=
  match ct with
  | some v =>
    let c := v.data.map Char.toLower
    if containsSub (("video").data) c then some (".mp4")
    else if containsSub (("pdf").data) c then some (".pdf")
    else if containsSub (("image").data) c then some (".jpg")
    else none
  | none => none

/-- The amended claim's filename rule, written as an option chain: URL
extension first, content-type mapping second, no extension otherwise;
prefix verbatim when inference is disabled. -/
def amendedC5Filename (url base : String) (useExt : Bool) (ct : Option String) : String :=
  if useExt then
    base ++ (((extFromUrl url).orElse (fun _ => extFromContentType ct)).getD (""))
  else base

/-! ## Lesson materializer (`download_lesson_content`)

The procedure is embedded as the ordered trace of its externally visible
steps: writing `lesson_metadata.json`, fetching the content items, writing
`content_items.json`, and every attempted call of the asset retriever
(direct `content_<i>` downloads first, then markup assets with the
lesson-global counter).  The content-item fetch result is an oracle
(`Except` mirrors `requests.exceptions.RequestException`). -/

/-- A content item: optional `url`, `file_url` and `content_html` fields
(`none` models an absent key). -/
structure ContentItem where
  url : Option String
  file_url : Option String
  content_html : Option String
  deriving DecidableEq

/-- One externally visible step of `download_lesson_content`. -/
inductive Event where
  | wroteMetadata
  | fetchedContentItems
  | wroteContentItems
  | attemptDownload (url fname : String) (useExt : Bool)
  deriving DecidableEq

/-- Embedding of `get_lesson_content`: a transport failure is caught and
degraded to an empty list. -/
def getLessonContent (fetch : Except String (List ContentItem)) : List ContentItem :=
  match fetch with
  | Except.ok items => items
  | Except.error _ => []

/-- Python `a or b` on optional strings (`None` and `""` are falsy). -/
def pyOr (a b : Option String) : Option String :=
  match a with
  | some s => if s = "" then b else some s
  | none => b

/-- The body of the direct-download loop for the item at index `p.1`: when a
`url` or `file_url` key is present and the chosen value is truthy, the asset
retriever is invoked with prefix `content_<i>` and extension inference
enabled. -/
def directItemEvents (p : Nat × ContentItem) : List Event :=
  if p.2.url.isSome || p.2.file_url.isSome then
    match pyOr p.2.url p.2.file_url with
    | some v =>
      if v = "" then []
      else [Event.attemptDownload v (("content_") ++ natToDec p.1) true]
    | none => []
  else []

/-- The direct-download loop (`for i, content_item in enumerate(...)`). -/
def directDownloadEvents (items : List ContentItem) : List Event :=
  flatMapL directItemEvents (indexedFrom 0 items)

/-- The amended claim's choice of direct URL: `url` when present and
non-empty, else `file_url` when present and non-empty, else nothing. -/
def specChosenUrl (it : ContentItem) : Option String :=
  match it.url with
  | some s =>
    if s ≠ "" then some s
    else
      match it.file_url with
      | some t => if t ≠ "" then some t else none
      | none => none
  | none =>
    match it.file_url with
    | some t => if t ≠ "" then some t else none
    | none => none

/-- The amended claim's direct download for the item at index `p.1`. -/
def specItemEvents (p : Nat × ContentItem) : List Event :=
  match specChosenUrl p.2 with
  | some v => [Event.attemptDownload v (("content_") ++ natToDec p.1) true]
  | none => []

/-- The direct-download loop as the amended claim describes it. -/
def specDirectEvents (items : List ContentItem) : List Event :=
  flatMapL specItemEvents (indexedFrom 0 items)

/-- `Path(urlparse(url).path).name` (ASCII model, paths without `.`/`..`
components): the last nonempty `/`-separated component of the URL path. -/
def urlParsePathName (u : String) : Chars :=
  ((splitOnChar '/' (urlPathOf u).data).filter (fun s => !s.isEmpty)).getLastD []

/-- The markup-asset filename prefix: `asset_<counter>_<name>` when the URL
path has a basename, `asset_<counter>` otherwise. -/
def assetFilename (counter : Nat) (orig : Chars) : String :=
  if orig.isEmpty then ("asset_") ++ natToDec counter
  else ("asset_") ++ natToDec counter ++ ("_") ++ String.mk orig

/-- The inner loop over the URLs extracted from one HTML fragment: one
attempted download per URL, the counter advancing by one each time
(extension inference disabled — the prefix is used verbatim). -/
def assetUrlEvents : List String → Nat → List Event
  | [], _ => []
  | u :: us, counter =>
    Event.attemptDownload u (assetFilename counter (urlParsePathName u)) false ::
      assetUrlEvents us (counter + 1)

/-- The markup-asset loop over content items: the counter is carried across
items, advancing by the number of URLs of each fragment. -/
def assetEventsGo : List ContentItem → Nat → List Event
  | [], _ => []
  | it :: rest, counter =>
    let html := (it.content_html).getD ("")
    if html = "" then assetEventsGo rest counter
    else
      let urls := extractUrlsFromHtml html
      assetUrlEvents urls counter ++ assetEventsGo rest (counter + urls.length)

/-- All markup-asset download attempts of a lesson (`asset_counter = 0` at
the start of the lesson). -/
def assetDownloadEvents (items : List ContentItem) : List Event :=
  assetEventsGo items 0

/-- All markup URLs of the lesson, in processing order. -/
def lessonAssetUrls (items : List ContentItem) : List String :=
  flatMapL (fun it =>
    let html := (it.content_html).getD ("")
    if html = "" then [] else extractUrlsFromHtml html) items

/-- Embedding of `download_lesson_content` as its trace: metadata written
first, then the content-item fetch, then `content_items.json` when the list
is non-empty, then the direct downloads, then the markup-asset downloads. -/
def downloadLessonContent (fetch : Except String (List ContentItem)) : List Event :=
  let items := getLessonContent fetch
  [Event.wroteMetadata, Event.fetchedContentItems] ++
    (if items.isEmpty then [] else [Event.wroteContentItems]) ++
    directDownloadEvents items ++ assetDownloadEvents items

/-- The filename of a download event. -/
def eventFilename : Event → Option String
  | Event.attemptDownload _ f _ => some f
  | _ => none

/-- The URL of a download event. -/
def eventUrl : Event → Option String
  | Event.attemptDownload u _ _ => some u
  | _ => none

/-- Is the event one of the two JSON metadata writes? -/
def isJsonWrite : Event → Bool
  | Event.wroteMetadata => true
  | Event.wroteContentItems => true
  | _ => false

/-- Is the event an asset download attempt? -/
def isDownloadEvent : Event → Bool
  | Event.attemptDownload _ _ _ => true
  | _ => false

/-- Concrete lesson content used to witness the write-before-download
theorem. -/
def c8Fetch : Except String (List ContentItem) :=
  Except.ok [{ url := some ("https://a/x.bin"), file_url := none, content_html := none }]

/-- A content item with an empty `url` value and a non-empty `file_url`. -/
def c9Item : ContentItem :=
  { url := some (""), file_url := some ("https://a/x.pdf"), content_html := none }

/-- An image URL referenced twice in one fragment. -/
def c10Url : String := "https://a/x.png"

/-- HTML embedding the same image URL twice. -/
def c10Html : String :=
  "<img src=\"https://a/x.png\"><img src=\"https://a/x.png\">"

/-- A content item whose HTML repeats one URL. -/
def c10Item : ContentItem :=
  { url := none, file_url := none, content_html := some c10Html }

/-! ## Helper lemmas -/

theorem digitChar_lt10 (d : Nat) (hd : d < 10) :
    (Nat.digitChar d).isDigit = true ∧ (Nat.digitChar d).toNat - 48 = d := by
  interval_cases d <;> exact ⟨by decide, by decide⟩

theorem natDigitsGo_val : ∀ (fuel n : Nat), n < fuel →
    decFromChars (natDigitsGo fuel n) = n := by
  intro fuel
  induction fuel with
  | zero => intro n h; omega
  | succ f ih =>
    intro n h
    by_cases hn : n = 0
    · subst hn; simp [natDigitsGo, decFromChars]
    · have hlt : n / 10 < n := Nat.div_lt_self (Nat.pos_of_ne_zero hn) (by norm_num)
      have hdiv : n / 10 < f := by omega
      unfold natDigitsGo
      simp only [hn, if_false]
      unfold decFromChars
      rw [List.foldl_append]
      have hrec := ih (n / 10) hdiv
      unfold decFromChars at hrec
      rw [hrec]
      simp only [List.foldl_cons, List.foldl_nil]
      have hm : (Nat.digitChar (n % 10)).toNat - 48 = n % 10 :=
        (digitChar_lt10 (n % 10) (Nat.mod_lt _ (by norm_num))).2
      rw [hm]
      omega

theorem natToDec_val (n : Nat) : decFromChars (natToDec n).data = n := by
  by_cases hn : n = 0
  · subst hn; decide
  · unfold natToDec
    simp only [hn, if_false]
    exact natDigitsGo_val (n + 1) n (by omega)

theorem natToDec_inj (m n : Nat) (h : natToDec m = natToDec n) : m = n := by
  have h2 := congrArg (fun s => decFromChars s.data) h
  simpa [natToDec_val] using h2

theorem natDigitsGo_digits : ∀ (fuel n : Nat) (c : Char),
    c ∈ natDigitsGo fuel n → c.isDigit = true := by
  intro fuel
  induction fuel with
  | zero => intro n c hc; simp [natDigitsGo] at hc
  | succ f ih =>
    intro n c hc
    by_cases hn : n = 0
    · subst hn; simp [natDigitsGo] at hc
    · unfold natDigitsGo at hc
      simp only [hn, if_false, List.mem_append, List.mem_singleton] at hc
      rcases hc with hc | hc
      · exact ih _ c hc
      · subst hc
        exact (digitChar_lt10 (n % 10) (Nat.mod_lt _ (by norm_num))).1

theorem natToDec_digits (n : Nat) (c : Char) (hc : c ∈ (natToDec n).data) :
    c.isDigit = true := by
  by_cases hn : n = 0
  · subst hn
    have h0 : (natToDec 0).data = ['0'] := rfl
    rw [h0] at hc
    simp at hc
    subst hc
    decide
  · unfold natToDec at hc
    simp only [hn, if_false] at hc
    exact natDigitsGo_digits _ _ c hc

theorem append_cancel_left_chars : ∀ (p a b : Chars), p ++ a = p ++ b → a = b := by
  intro p
  induction p with
  | nil => intro a b h; simpa using h
  | cons c cs ih =>
    intro a b h
    simp only [List.cons_append, List.cons.injEq, true_and] at h
    exact ih a b h

theorem digit_prefix_eq : ∀ (d1 t1 d2 t2 : Chars),
    (∀ c ∈ d1, c.isDigit = true) → (∀ c ∈ d2, c.isDigit = true) →
    (∀ c, t1.head? = some c → c.isDigit = false) →
    (∀ c, t2.head? = some c → c.isDigit = false) →
    d1 ++ t1 = d2 ++ t2 → d1 = d2 := by
  intro d1
  induction d1 with
  | nil =>
    intro t1 d2 t2 _ hd2 ht1 _ h
    cases d2 with
    | nil => rfl
    | cons c cs =>
      exfalso
      simp only [List.nil_append, List.cons_append] at h
      have h1 : t1.head? = some c := by rw [h]; rfl
      have h2 := ht1 c h1
      have h3 := hd2 c (by simp)
      simp [h3] at h2
  | cons c cs ih =>
    intro t1 d2 t2 hd1 hd2 ht1 ht2 h
    cases d2 with
    | nil =>
      exfalso
      simp only [List.cons_append, List.nil_append] at h
      have h1 : t2.head? = some c := by rw [← h]; rfl
      have h2 := ht2 c h1
      have h3 := hd1 c (by simp)
      simp [h3] at h2
    | cons e es =>
      simp only [List.cons_append, List.cons.injEq] at h
      obtain ⟨h1, h2⟩ := h
      subst h1
      have := ih t1 es t2 (fun x hx => hd1 x (by simp [hx]))
        (fun x hx => hd2 x (by simp [hx])) ht1 ht2 h2
      rw [this]

theorem string_data_append (a b : String) : (a ++ b).data = a.data ++ b.data := by
  cases a with
  | mk la =>
    cases b with
    | mk lb => rfl

theorem str_append_assoc (a b c : String) : (a ++ b) ++ c = a ++ (b ++ c) := by
  cases a with
  | mk la =>
    cases b with
    | mk lb =>
      cases c with
      | mk lc =>
        show String.mk ((la ++ lb) ++ lc) = String.mk (la ++ (lb ++ lc))
        rw [List.append_assoc]

theorem str_append_empty (a : String) : a ++ ("") = a := by
  cases a with
  | mk la =>
    show String.mk (la ++ []) = String.mk la
    rw [List.append_nil]

theorem assetFilename_data (c : Nat) (o : Chars) :
    (assetFilename c o).data
      = ("asset_").data ++ ((natToDec c).data ++ (if o.isEmpty then [] else '_' :: o)) := by
  unfold assetFilename
  by_cases h : o.isEmpty
  · simp [h, string_data_append]
  · simp [h, string_data_append, List.append_assoc]

theorem assetFilename_counter_inj (c1 c2 : Nat) (o1 o2 : Chars)
    (h : assetFilename c1 o1 = assetFilename c2 o2) : c1 = c2 := by
  have hd := congrArg String.data h
  rw [assetFilename_data, assetFilename_data] at hd
  have h2 := append_cancel_left_chars _ _ _ hd
  have hdig := digit_prefix_eq (natToDec c1).data (if o1.isEmpty then [] else '_' :: o1)
      (natToDec c2).data (if o2.isEmpty then [] else '_' :: o2)
      (fun c hc => natToDec_digits c1 c hc) (fun c hc => natToDec_digits c2 c hc)
      (by
        intro c hc
        by_cases h1 : o1.isEmpty
        · simp [h1] at hc
        · simp [h1] at hc
          subst hc
          decide)
      (by
        intro c hc
        by_cases h1 : o2.isEmpty
        · simp [h1] at hc
        · simp [h1] at hc
          subst hc
          decide)
      h2
  have h3 : natToDec c1 = natToDec c2 := by
    cases hc1 : natToDec c1 with
    | mk l1 =>
      cases hc2 : natToDec c2 with
      | mk l2 =>
        have e1 : (natToDec c1).data = l1 := by rw [hc1]
        have e2 : (natToDec c2).data = l2 := by rw [hc2]
        rw [e1, e2] at hdig
        rw [hdig]
  exact natToDec_inj c1 c2 h3

theorem indexedFrom_fst_le : ∀ (l : List α) (k : Nat) (p : Nat × α),
    p ∈ indexedFrom k l → k ≤ p.1 := by
  intro l
  induction l with
  | nil => intro k p hp; simp [indexedFrom] at hp
  | cons x xs ih =>
    intro k p hp
    simp only [indexedFrom, List.mem_cons] at hp
    rcases hp with hp | hp
    · subst hp; exact Nat.le_refl k
    · have := ih (k + 1) p hp
      omega

theorem indexedFrom_append : ∀ (xs ys : List α) (k : Nat),
    indexedFrom k (xs ++ ys) = indexedFrom k xs ++ indexedFrom (k + xs.length) ys := by
  intro xs
  induction xs with
  | nil => intro ys k; simp [indexedFrom]
  | cons x xs ih =>
    intro ys k
    have harith : k + 1 + xs.length = k + (xs.length + 1) := by omega
    simp [indexedFrom, ih, harith]

theorem indexedFrom_length : ∀ (l : List α) (k : Nat),
    (indexedFrom k l).length = l.length := by
  intro l
  induction l with
  | nil => intro k; rfl
  | cons x xs ih => intro k; simp [indexedFrom, ih]

theorem flatMapL_mem : ∀ (l : List α) (f : α → List β) (b : β),
    b ∈ flatMapL f l → ∃ x ∈ l, b ∈ f x := by
  intro l f
  induction l with
  | nil => intro b hb; simp [flatMapL] at hb
  | cons x xs ih =>
    intro b hb
    simp only [flatMapL, List.mem_append] at hb
    rcases hb with hb | hb
    · exact ⟨x, by simp, hb⟩
    · obtain ⟨y, hy, hby⟩ := ih b hb
      exact ⟨y, by simp [hy], hby⟩

theorem flatMapL_congr : ∀ (l : List α) (f g : α → List β),
    (∀ x, f x = g x) → flatMapL f l = flatMapL g l := by
  intro l f g hfg
  induction l with
  | nil => rfl
  | cons x xs ih => simp [flatMapL, hfg x, ih]

theorem mem_of_getElemOpt : ∀ (l : List α) (i : Nat) (a : α), l[i]? = some a → a ∈ l := by
  intro l
  induction l with
  | nil => intro i a h; simp at h
  | cons x xs ih =>
    intro i a h
    cases i with
    | zero =>
      simp at h
      subst h
      simp
    | succ j =>
      simp only [List.getElem?_cons_succ] at h
      exact List.mem_cons_of_mem _ (ih j a h)

theorem assetUrlEvents_eq : ∀ (us : List String) (k : Nat),
    assetUrlEvents us k
      = (indexedFrom k us).map
          (fun p => Event.attemptDownload p.2 (assetFilename p.1 (urlParsePathName p.2)) false) := by
  intro us
  induction us with
  | nil => intro k; rfl
  | cons u usr ih => intro k; simp [assetUrlEvents, indexedFrom, ih]

theorem assetEventsGo_eq : ∀ (items : List ContentItem) (k : Nat),
    assetEventsGo items k
      = (indexedFrom k (lessonAssetUrls items)).map
          (fun p => Event.attemptDownload p.2 (assetFilename p.1 (urlParsePathName p.2)) false) := by
  intro items
  induction items with
  | nil => intro k; rfl
  | cons it rest ih =>
    intro k
    show (if (it.content_html).getD ("") = "" then assetEventsGo rest k
      else
        assetUrlEvents (extractUrlsFromHtml ((it.content_html).getD (""))) k ++
          assetEventsGo rest (k + (extractUrlsFromHtml ((it.content_html).getD (""))).length))
      = _
    by_cases hh : (it.content_html).getD ("") = ""
    · simp only [hh, if_true]
      have hurls : lessonAssetUrls (it :: rest) = lessonAssetUrls rest := by
        simp [lessonAssetUrls, flatMapL, hh]
      rw [hurls]
      exact ih k
    · simp only [hh, if_false]
      have hurls : lessonAssetUrls (it :: rest)
          = extractUrlsFromHtml ((it.content_html).getD ("")) ++ lessonAssetUrls rest := by
        simp [lessonAssetUrls, flatMapL, hh]
      rw [hurls, indexedFrom_append, List.map_append, assetUrlEvents_eq, ih]

theorem assetNames_pairwise : ∀ (us : List String) (k : Nat),
    List.Pairwise (fun a b => a ≠ b)
      ((indexedFrom k us).map (fun p => assetFilename p.1 (urlParsePathName p.2))) := by
  intro us
  induction us with
  | nil => intro k; simp [indexedFrom]
  | cons u usr ih =>
    intro k
    simp only [indexedFrom, List.map_cons]
    constructor
    · intro b hb
      simp only [List.mem_map] at hb
      obtain ⟨p, hp, hpb⟩ := hb
      have hk := indexedFrom_fst_le usr (k + 1) p hp
      intro hEq
      rw [← hpb] at hEq
      have := assetFilename_counter_inj _ _ _ _ hEq
      omega
    · exact ih (k + 1)

theorem directItemEvents_shape : ∀ (p : Nat × ContentItem) (e : Event),
    e ∈ directItemEvents p → isDownloadEvent e = true := by
  intro p e he
  unfold directItemEvents at he
  by_cases h1 : p.2.url.isSome || p.2.file_url.isSome
  · simp only [h1, if_true] at he
    cases hp : pyOr p.2.url p.2.file_url with
    | none => rw [hp] at he; simp at he
    | some v =>
      rw [hp] at he
      by_cases hv : v = ""
      · simp [hv] at he
      · simp only [hv, if_false, List.mem_singleton] at he
        subst he
        rfl
  · simp [h1] at he

theorem directDownloadEvents_shape (items : List ContentItem) (e : Event)
    (he : e ∈ directDownloadEvents items) : isDownloadEvent e = true := by
  obtain ⟨p, _, hep⟩ := flatMapL_mem _ _ _ he
  exact directItemEvents_shape p e hep

theorem assetDownloadEvents_shape (items : List ContentItem) (e : Event)
    (he : e ∈ assetDownloadEvents items) : isDownloadEvent e = true := by
  unfold assetDownloadEvents at he
  rw [assetEventsGo_eq] at he
  simp only [List.mem_map] at he
  obtain ⟨p, _, hpe⟩ := he
  rw [← hpe]
  rfl

theorem front_back_lt (l1 l2 : List Event)
    (hfront : ∀ e ∈ l1, isDownloadEvent e = false)
    (hback : ∀ e ∈ l2, isJsonWrite e = false)
    (i j : Nat) (e f : Event)
    (he : (l1 ++ l2)[i]? = some e) (hwe : isJsonWrite e = true)
    (hf : (l1 ++ l2)[j]? = some f) (hdf : isDownloadEvent f = true) : i < j := by
  have hi : i < l1.length := by
    by_contra hni
    push_neg at hni
    rw [List.getElem?_append_right hni] at he
    have := hback e (mem_of_getElemOpt _ _ _ he)
    rw [this] at hwe
    exact Bool.false_ne_true hwe
  have hj : l1.length ≤ j := by
    by_contra hnj
    push_neg at hnj
    rw [List.getElem?_append_left hnj] at hf
    have := hfront f (mem_of_getElemOpt _ _ _ hf)
    rw [this] at hdf
    exact Bool.false_ne_true hdf
  omega

theorem paginate_run {α : Type} (N : Nat) (items : Nat → List α) :
    ∀ (fuel p : Nat), p ≤ N → N < p + fuel →
      (∀ i, p ≤ i → i < N → items i ≠ []) →
      paginateGo (nPageEndpoint N items) fuel p
        = some (pagesFrom p (N + 1 - p), itemsFrom items p (N + 1 - p)) := by
  intro fuel
  induction fuel with
  | zero => intro p h1 h2 h3; omega
  | succ f ih =>
    intro p hpN hNf hne
    by_cases hp : p = N
    · subst hp
      have hN1 : p + 1 - p = 1 := by omega
      show (if !pageHasNext (nPageEndpoint p items p)
            || (pageResults (nPageEndpoint p items p)).isEmpty
          then some ([p], pageResults (nPageEndpoint p items p))
          else _) = _
      have hnext : pageHasNext (nPageEndpoint p items p) = false := by
        simp [nPageEndpoint, pageHasNext]
      rw [hnext]
      simp [nPageEndpoint, pageResults, hN1, pagesFrom, itemsFrom]
    · have hplt : p < N := by omega
      have hnextp : pageHasNext (nPageEndpoint N items p) = true := by
        simp [nPageEndpoint, pageHasNext, hplt]
      have hresp : pageResults (nPageEndpoint N items p) = items p := rfl
      have hnep : (items p).isEmpty = false := by
        cases hip : items p with
        | nil => exact absurd hip (hne p (Nat.le_refl p) hplt)
        | cons a as => rfl
      show (if !pageHasNext (nPageEndpoint N items p)
            || (pageResults (nPageEndpoint N items p)).isEmpty
          then some ([p], pageResults (nPageEndpoint N items p))
          else
            match paginateGo (nPageEndpoint N items) f (p + 1) with
            | some (ps, acc) => some (p :: ps, pageResults (nPageEndpoint N items p) ++ acc)
            | none => none) = _
      rw [hnextp, hresp, hnep]
      simp only [Bool.not_true, Bool.false_or, if_false]
      rw [ih (p + 1) (by omega) (by omega) (fun i hi1 hi2 => hne i (by omega) hi2)]
      have harith : N + 1 - p = (N + 1 - (p + 1)) + 1 := by omega
      rw [harith]
      simp [pagesFrom, itemsFrom]

theorem paginate_stop {α : Type} (N : Nat) (items : Nat → List α) :
    ∀ (fuel p k : Nat), p ≤ k → k ≤ N → items k = [] →
      (∀ i, p ≤ i → i < k → items i ≠ []) → k < p + fuel →
      paginateGo (nPageEndpoint N items) fuel p
        = some (pagesFrom p (k + 1 - p), itemsFrom items p (k + 1 - p)) := by
  intro fuel
  induction fuel with
  | zero => intro p k h1 h2 h3 h4 h5; omega
  | succ f ih =>
    intro p k hpk hkN hk hne hkf
    by_cases hp : p = k
    · subst hp
      have hp1 : p + 1 - p = 1 := by omega
      show (if !pageHasNext (nPageEndpoint N items p)
            || (pageResults (nPageEndpoint N items p)).isEmpty
          then some ([p], pageResults (nPageEndpoint N items p))
          else _) = _
      have hresp : pageResults (nPageEndpoint N items p) = items p := rfl
      rw [hresp, hk]
      simp [hp1, pagesFrom, itemsFrom, hk]
    · have hplt : p < k := by omega
      have hnextp : pageHasNext (nPageEndpoint N items p) = true := by
        simp [nPageEndpoint, pageHasNext]
        omega
      have hresp : pageResults (nPageEndpoint N items p) = items p := rfl
      have hnep : (items p).isEmpty = false := by
        cases hip : items p with
        | nil => exact absurd hip (hne p (Nat.le_refl p) hplt)
        | cons a as => rfl
      show (if !pageHasNext (nPageEndpoint N items p)
            || (pageResults (nPageEndpoint N items p)).isEmpty
          then some ([p], pageResults (nPageEndpoint N items p))
          else
            match paginateGo (nPageEndpoint N items) f (p + 1) with
            | some (ps, acc) => some (p :: ps, pageResults (nPageEndpoint N items p) ++ acc)
            | none => none) = _
      rw [hnextp, hresp, hnep]
      simp only [Bool.not_true, Bool.false_or, if_false]
      rw [ih (p + 1) k (by omega) hkN hk (fun i hi1 hi2 => hne i (by omega) hi2) (by omega)]
      have harith : k + 1 - p = (k + 1 - (p + 1)) + 1 := by omega
      rw [harith]
      simp [pagesFrom, itemsFrom]

theorem kept_dropWhile_eq : ∀ (l : Chars), (∀ c ∈ l, keepChar c = true) →
    l.dropWhile pySpace = l.dropWhile (fun c => c = ' ') := by
  intro l
  induction l with
  | nil => intro hl; rfl
  | cons c cs ih =>
    intro hl
    have hc := hl c (by simp)
    have htail := ih (fun x hx => hl x (by simp [hx]))
    by_cases hsp : c = ' '
    · subst hsp
      rw [List.dropWhile_cons, List.dropWhile_cons]
      rw [if_pos (by decide), if_pos (by decide)]
      exact htail
    · have h1 : pySpace c = false := by
        cases hps3 : pySpace c with
        | false => rfl
        | true =>
          exfalso
          have hps2 : c = ' ' ∨ c = '\t' ∨ c = '\n' ∨ c = '\x0d' ∨ c = '\x0b' ∨ c = '\x0c' := by
            simpa [pySpace, or_assoc] using hps3
          rcases hps2 with h | h | h | h | h | h
          · exact hsp h
          · subst h; exact absurd hc (by decide)
          · subst h; exact absurd hc (by decide)
          · subst h; exact absurd hc (by decide)
          · subst h; exact absurd hc (by decide)
          · subst h; exact absurd hc (by decide)
      rw [List.dropWhile_cons, List.dropWhile_cons]
      rw [if_neg (by simp [h1]), if_neg (by simp [hsp])]

theorem directItemEvents_spec : ∀ (p : Nat × ContentItem),
    directItemEvents p = specItemEvents p := by
  intro p
  unfold directItemEvents specItemEvents specChosenUrl pyOr
  rcases p with ⟨i, it⟩
  rcases hu : it.url with _ | s <;> rcases hf : it.file_url with _ | t
  · simp
  · simp only [Option.isSome_none, Option.isSome_some, Bool.false_or, if_true]
    by_cases ht : t = ""
    · simp [ht]
    · simp [ht]
  · simp only [Option.isSome_none, Option.isSome_some, Bool.or_false, if_true]
    by_cases hs : s = ""
    · simp [hs]
    · simp [hs]
  · simp only [Option.isSome_some, Bool.or_self, if_true]
    by_cases hs : s = ""
    · by_cases ht : t = ""
      · simp [hs, ht]
      · simp [hs, ht]
    · simp [hs]

/-! ## Claim theorems -/

/-- Claim C1 (counterexample): the claim says anchors qualify when their
*target path* ends in a listed extension; the code instead requires the
whole href value to end in the extension, so an href carrying a query
string after `.pdf` has a qualifying path but is not extracted. -/
theorem extract_target_path_counterexample :
    extractUrlsFromHtml c1Html = []
    ∧ claimC1Extract c1Html = [("https://a/x.pdf?v=1")]
    ∧ extractUrlsFromHtml c1Html ≠ claimC1Extract c1Html := by
  refine ⟨by decide, by decide, by decide⟩

/-- Claim C1 (amended): for every HTML input the extractor returns exactly
the src-attribute matches of img, video, audio, source, embed, iframe and
the href-attribute matches of anchors whose *href value* ends in a listed
extension (case-insensitively), keeping only matches beginning with
`http://` or `https://`, in pattern-application order. -/
theorem extract_contract_amended (html : String) :
    extractUrlsFromHtml html = specOrderedExtract html := by
  by_cases h : html = ""
  · subst h; decide
  · unfold extractUrlsFromHtml specOrderedExtract
    simp only [if_neg h, htmlPatterns, List.foldl_cons, List.foldl_nil, List.nil_append]
    simp [List.filter_append, findallPattern, List.append_assoc]

/-- Claim C2: for an endpoint returning `N` pages whose last page has no
next pointer, the pagination loop terminates within `N` iterations, requests
exactly pages 1..N (when no earlier page is empty) and returns the items
concatenated in page order; it stops at the first empty page. -/
theorem pagination_contract {α : Type} (N : Nat) (items : Nat → List α) (hN : 1 ≤ N) :
    ((∀ i, 1 ≤ i → i < N → items i ≠ []) →
      getPaginatedResults (nPageEndpoint N items) N
        = some (pagesFrom 1 N, itemsFrom items 1 N))
    ∧ (∀ k, 1 ≤ k → k ≤ N → items k = [] →
        (∀ i, 1 ≤ i → i < k → items i ≠ []) →
        getPaginatedResults (nPageEndpoint N items) N
          = some (pagesFrom 1 k, itemsFrom items 1 k)) := by
  constructor
  · intro hne
    have h := paginate_run N items N 1 hN (by omega) hne
    simpa using h
  · intro k hk1 hkN hk hne
    have h := paginate_stop N items N 1 k hk1 hkN hk hne (by omega)
    simpa using h

/-- Witness for claim C2 at a concrete two-page endpoint. -/
theorem pagination_contract_witness :
    getPaginatedResults (nPageEndpoint 2 c2Items) 2
      = some (pagesFrom 1 2, itemsFrom c2Items 1 2) := by
  refine (pagination_contract 2 c2Items (by decide)).1 ?_
  intro i h1 h2
  have hi : i = 1 := by omega
  subst hi
  simp [c2Items]

/-- Claim C3: a transport failure while fetching a course's lesson list is
wrapped in an error naming the course and the cause, and the course loop
records it and continues with the remaining courses. -/
theorem course_failure_isolated (fetch : String → Except String (List LessonId))
    (pre suf : List String) (cid e : String) (h : fetch cid = Except.error e) :
    downloadCourses fetch (pre ++ cid :: suf)
        = downloadCourses fetch pre
            ++ CourseOutcome.failed (getCourseLessonsMsg cid e) :: downloadCourses fetch suf
    ∧ (∃ x y, getCourseLessonsMsg cid e = x ++ cid ++ y)
    ∧ (∃ x y, getCourseLessonsMsg cid e = x ++ e ++ y) := by
  refine ⟨?_, ?_, ?_⟩
  · simp [downloadCourses, List.map_append, List.map_cons, processCourse, getCourseLessons, h]
  · exact ⟨("Could not fetch lessons for course "), (": ") ++ e, by
      simp [getCourseLessonsMsg, str_append_assoc]⟩
  · exact ⟨("Could not fetch lessons for course ") ++ cid ++ (": "), (""), by
      simp [getCourseLessonsMsg, str_append_assoc, str_append_empty]⟩

/-- Witness for claim C3 at a concrete failing transport. -/
theorem course_failure_isolated_witness :
    downloadCourses c3Fetch ([] ++ ("c1") :: [])
      = downloadCourses c3Fetch []
          ++ CourseOutcome.failed (getCourseLessonsMsg ("c1") ("boom")) :: downloadCourses c3Fetch [] :=
  (course_failure_isolated c3Fetch [] [] ("c1") ("boom") rfl).1

/-- Claim C4: the lesson directory name is the title with every character
that is not alphanumeric, space, hyphen or underscore removed, trailing
spaces trimmed, then an underscore and the id; in particular
`Intro: Part 1/2?` with id `42` yields `Intro Part 12_42`. -/
theorem lesson_dir_name_contract :
    (∀ title lessonId, lessonDirName title lessonId = specLessonDirName title lessonId)
    ∧ lessonDirName ("Intro: Part 1/2?") ("42") = ("Intro Part 12_42") := by
  constructor
  · intro t i
    unfold lessonDirName specLessonDirName safeTitle rstripBy
    have h := kept_dropWhile_eq ((t.data.filter keepChar).reverse)
      (fun c hc => (List.mem_filter.mp (List.mem_reverse.mp hc)).2)
    rw [h]
  · decide

/-- Claim C5 (counterexample): the claim derives the extension from the
URL's trailing *path* segment and maps content types by `video/*`/`image/*`
prefixes; the code instead takes everything after the URL's last `/` (so a
bare host yields `.com`) and tests `video`/`image` as substrings anywhere in
the content type. -/
theorem download_filename_counterexample :
    downloadFilename ("https://a.com") ("content_0") true (some ("image/png")) = ("content_0.com")
    ∧ claimC5Filename ("https://a.com") ("content_0") true (some ("image/png")) = ("content_0.jpg")
    ∧ downloadFilename ("https://a.com") ("content_0") true (some ("image/png"))
        ≠ claimC5Filename ("https://a.com") ("content_0") true (some ("image/png"))
    ∧ downloadFilename ("https://a/file") ("content_0") true (some ("x-video/stream"))
        = ("content_0.mp4")
    ∧ claimC5Filename ("https://a/file") ("content_0") true (some ("x-video/stream"))
        = ("content_0")
    ∧ downloadFilename ("https://a/file") ("content_0") true (some ("x-video/stream"))
        ≠ claimC5Filename ("https://a/file") ("content_0") true (some ("x-video/stream")) := by
  refine ⟨by decide, by decide, by decide, by decide, by decide, by decide⟩

/-- Claim C5 (amended): with inference enabled the extension comes first
from the text after the URL's last `/` when it contains a dot (text after
the last dot), otherwise from the content-type header by substring tests in
the order video, pdf, image, otherwise no extension; with inference
disabled the prefix is the filename verbatim. -/
theorem download_filename_amended (url base : String) (useExt : Bool) (ct : Option String) :
    downloadFilename url base useExt ct = amendedC5Filename url base useExt ct := by
  unfold downloadFilename amendedC5Filename extFromUrl extFromContentType
  by_cases hu : useExt
  · simp only [hu, if_true]
    by_cases hdot : ('.' ∈ lastUrlSegment url)
    · simp [hdot, Option.orElse]
    · cases ct with
      | none => simp [hdot, Option.orElse]
      | some v =>
        by_cases h1 : containsSub (("video").data) (v.data.map Char.toLower)
        · simp [hdot, h1, Option.orElse]
        · by_cases h2 : containsSub (("pdf").data) (v.data.map Char.toLower)
          · simp [hdot, h1, h2, Option.orElse]
          · by_cases h3 : containsSub (("image").data) (v.data.map Char.toLower)
            · simp [hdot, h1, h2, h3, Option.orElse]
            · simp [hdot, h1, h2, h3, Option.orElse]
  · simp [hu]

/-- Claim C6: a transport failure of the content-item fetch degrades to an
empty list (nothing propagates), the lesson metadata is already written at
that point and the trace ends there, and `content_items.json` is written
exactly when the fetched list is non-empty. -/
theorem lesson_content_failure_nonfatal (e : String)
    (fetch : Except String (List ContentItem)) :
    getLessonContent (Except.error e) = []
    ∧ downloadLessonContent (Except.error e)
        = [Event.wroteMetadata, Event.fetchedContentItems]
    ∧ (Event.wroteContentItems ∈ downloadLessonContent fetch
        ↔ getLessonContent fetch ≠ []) := by
  refine ⟨rfl, rfl, ?_⟩
  unfold downloadLessonContent
  constructor
  · intro hmem
    by_cases hni : (getLessonContent fetch).isEmpty
    · exfalso
      simp only [hni, if_true, List.nil_append, List.mem_append, List.mem_cons,
        List.not_mem_nil, or_false] at hmem
      rcases hmem with ((hmem | hmem) | hmem) | hmem
      · exact absurd hmem (by decide)
      · exact absurd hmem (by decide)
      · have hs := directDownloadEvents_shape _ _ hmem
        simp [isDownloadEvent] at hs
      · have hs := assetDownloadEvents_shape _ _ hmem
        simp [isDownloadEvent] at hs
    · intro hcon
      rw [hcon] at hni
      exact hni rfl
  · intro hne
    have hni : (getLessonContent fetch).isEmpty = false := by
      cases hi : getLessonContent fetch with
      | nil => exact absurd hi hne
      | cons a as => rfl
    simp [hni]

/-- Claim C7: the markup-asset counter is global to the lesson — the events
are exactly one per extracted URL, indexed from 0 across all content items —
and the resulting `asset_<counter>[_<name>]` filenames are pairwise
distinct. -/
theorem asset_counter_contract (items : List ContentItem) :
    assetDownloadEvents items
      = (indexedFrom 0 (lessonAssetUrls items)).map
          (fun p => Event.attemptDownload p.2 (assetFilename p.1 (urlParsePathName p.2)) false)
    ∧ List.Pairwise (fun a b => a ≠ b)
        ((assetDownloadEvents items).filterMap eventFilename) := by
  have h1 := assetEventsGo_eq items 0
  refine ⟨h1, ?_⟩
  have h2 : ∀ (ps : List (Nat × String)),
      (ps.map (fun p =>
          Event.attemptDownload p.2 (assetFilename p.1 (urlParsePathName p.2)) false)).filterMap
          eventFilename
        = ps.map (fun p => assetFilename p.1 (urlParsePathName p.2)) := by
    intro ps
    induction ps with
    | nil => rfl
    | cons p pr ih => simp [eventFilename, ih]
  show List.Pairwise _ ((assetDownloadEvents items).filterMap eventFilename)
  rw [show assetDownloadEvents items = assetEventsGo items 0 from rfl, h1, h2]
  exact assetNames_pairwise _ 0

/-- Claim C8: in the per-lesson trace, every JSON metadata write occurs
strictly before every asset download attempt. -/
theorem writes_before_downloads (fetch : Except String (List ContentItem))
    (i j : Nat) (e f : Event)
    (he : (downloadLessonContent fetch)[i]? = some e) (hwe : isJsonWrite e = true)
    (hf : (downloadLessonContent fetch)[j]? = some f) (hdf : isDownloadEvent f = true) :
    i < j := by
  have hdecomp : downloadLessonContent fetch
      = ([Event.wroteMetadata, Event.fetchedContentItems] ++
          (if (getLessonContent fetch).isEmpty then [] else [Event.wroteContentItems]))
        ++ (directDownloadEvents (getLessonContent fetch)
            ++ assetDownloadEvents (getLessonContent fetch)) := by
    unfold downloadLessonContent
    simp [List.append_assoc]
  rw [hdecomp] at he hf
  refine front_back_lt _ _ ?_ ?_ i j e f he hwe hf hdf
  · intro x hx
    simp only [List.mem_append] at hx
    rcases hx with hx | hx
    · simp only [List.mem_cons, List.not_mem_nil, or_false] at hx
      rcases hx with hx | hx <;> (subst hx; rfl)
    · by_cases hni : (getLessonContent fetch).isEmpty
      · rw [if_pos hni] at hx
        simp at hx
      · rw [if_neg hni] at hx
        simp only [List.mem_singleton] at hx
        subst hx
        rfl
  · intro x hx
    simp only [List.mem_append] at hx
    rcases hx with hx | hx
    · have hshape := directDownloadEvents_shape _ x hx
      revert hshape
      cases x <;> simp [isDownloadEvent, isJsonWrite]
    · have hshape := assetDownloadEvents_shape _ x hx
      revert hshape
      cases x <;> simp [isDownloadEvent, isJsonWrite]

/-- Witness for claim C8 at a concrete lesson with one direct download. -/
theorem writes_before_downloads_witness :
    (downloadLessonContent c8Fetch)[0]? = some Event.wroteMetadata
    ∧ (downloadLessonContent c8Fetch)[3]?
        = some (Event.attemptDownload ("https://a/x.bin") ("content_0") true)
    ∧ (0 : Nat) < 3 := by
  refine ⟨by decide, by decide, ?_⟩
  exact writes_before_downloads c8Fetch 0 3 Event.wroteMetadata
    (Event.attemptDownload ("https://a/x.bin") ("content_0") true)
    (by decide) (by decide) (by decide) (by decide)

/-- Claim C9 (counterexample): for an item whose `url` field is present but
empty and whose `file_url` is a URL, the claim says the value of `url` is
downloaded (both fields being present); the code downloads the `file_url`
value instead. -/
theorem direct_url_preference_counterexample :
    c9Item.url = some ("")
    ∧ c9Item.file_url = some ("https://a/x.pdf")
    ∧ directDownloadEvents [c9Item]
        = [Event.attemptDownload ("https://a/x.pdf") ("content_0") true]
    ∧ ("https://a/x.pdf" : String) ≠ ("") := by
  refine ⟨rfl, rfl, by decide, by decide⟩

/-- Claim C9 (amended): for each content item the retriever is invoked at
most once, with prefix `content_<i>` and inference enabled; `url` is
preferred only when its value is non-empty, an empty or missing `url` falls
back to `file_url`, and nothing is downloaded when the chosen value is
empty or missing. -/
theorem direct_url_preference_amended (items : List ContentItem) :
    directDownloadEvents items = specDirectEvents items := by
  unfold directDownloadEvents specDirectEvents
  exact flatMapL_congr _ _ _ directItemEvents_spec

/-- Claim C10: the extractor performs no deduplication — the lesson's
markup loop attempts exactly one download per extracted occurrence, and a
URL referenced twice is extracted twice and downloaded twice. -/
theorem no_dedup_contract :
    (∀ items : List ContentItem,
      (assetDownloadEvents items).length = (lessonAssetUrls items).length)
    ∧ extractUrlsFromHtml c10Html = [c10Url, c10Url]
    ∧ (assetDownloadEvents [c10Item]).filterMap eventUrl = [c10Url, c10Url] := by
  refine ⟨?_, by decide, by decide⟩
  intro items
  rw [show assetDownloadEvents items = assetEventsGo items 0 from rfl,
    assetEventsGo_eq items 0]
  simp [indexedFrom_length]
